import Mathlib

/-!
Verification of the slide-deduplication tool (cleanpdf.py).

The program removes redundant incremental slides from a PDF deck: a page
is dropped when its normalized text is mostly contained in the next
page's normalized text and the next page is strictly longer.

Embedding choices:
* A Python string is embedded as a `List Nat` of character codepoints,
  so `len` is `List.length` and string concatenation is `List.append`.
* Python `str.split()` (split on whitespace runs, dropping empties) and
  `str.lower()` (ASCII case folding on the codepoints that occur here)
  are embedded directly on codepoint lists.
* The overlap ratio is computed in `ℚ`; Python's float division of
  small integers is exact on every comparison the program makes.
* The PDF library (fitz) is the external boundary: the model takes the
  already-extracted, normalized page-text sequence, which is exactly the
  data `clean_pdf` computes before its pure sweep.
-/

namespace CleanPdf

/-- Conversion from a Lean string literal to the codepoint-list embedding
of a Python string, used to write concrete test inputs readably. -/
def cp (s : String) : List Nat := s.toList.map Char.toNat

/-- The ASCII whitespace characters Python `str.split()` splits on:
space, tab, newline, carriage return, vertical tab, form feed. -/
def isSpace (c : Nat) : Bool :=
  c == 32 || c == 9 || c == 10 || c == 13 || c == 11 || c == 12

/-- Python `str.lower()` on a single ASCII codepoint: `A`-`Z` (65..90)
maps to `a`-`z` (97..122); every other codepoint is unchanged. -/
def lowerChar (c : Nat) : Nat :=
  if 65 ≤ c ∧ c ≤ 90 then c + 32 else c

/-- Worker for `pySplit`: `acc` holds the reversed current word. -/
def splitAux : List Nat → List Nat → List (List Nat)
  | [], acc => if acc = [] then [] else [acc.reverse]
  | c :: cs, acc =>
    if isSpace c then
      if acc = [] then splitAux cs [] else acc.reverse :: splitAux cs []
    else
      splitAux cs (c :: acc)

/-- Python `str.split()` with no argument: the maximal runs of
non-whitespace characters, in order; leading, trailing and repeated
whitespace yield no empty words. -/
def pySplit (l : List Nat) : List (List Nat) := splitAux l []

/-- Python `" ".join(ws)`: the words joined with single spaces. -/
def joinWords : List (List Nat) → List Nat
  | [] => []
  | [w] => w
  | w :: v :: ws => w ++ 32 :: joinWords (v :: ws)

/-- `normalize` from cleanpdf.py: lowercase, split on whitespace runs,
rejoin with single spaces (`" ".join(text.lower().split())`). -/
def normalize (text : List Nat) : List Nat :=
  joinWords (pySplit (text.map lowerChar))

/-- `text_overlap_ratio` from cleanpdf.py: the fraction of the distinct
words of `a` that also occur in `b`; `0.0` when `a` has no words.
`List.dedup` plays the role of Python's `set`, so the count of kept
elements matches `len(set_a & set_b)` and the denominator `len(set_a)`. -/
def text_overlap_ratio (a b : List Nat) : ℚ :=
  let sa := (pySplit a).dedup
  let sb := (pySplit b).dedup
  if sa = [] then 0
  else ((sa.filter (fun w => w ∈ sb)).length : ℚ) / (sa.length : ℚ)

/-- `is_redundant` from cleanpdf.py: `prev_text` is redundant against
`curr_text` when `curr_text` is strictly longer in characters and the
overlap ratio reaches the threshold. -/
def is_redundant (prev_text curr_text : List Nat) (threshold : ℚ) : Bool :=
  if curr_text.length ≤ prev_text.length then false
  else decide (threshold ≤ text_overlap_ratio prev_text curr_text)

/-- The keep decision the `clean_pdf` loop makes at index `i`: the last
index is always kept; any other index is kept exactly when it is not
redundant against its successor. -/
def keepPred (texts : List (List Nat)) (threshold : ℚ) (i : Nat) : Bool :=
  if i = texts.length - 1 then true
  else ! is_redundant (texts.getD i []) (texts.getD (i + 1) []) threshold

/-- `keep_indices` as built by the loop in `clean_pdf`: the indices
`0..N-1` in order, each present exactly when its keep decision holds. -/
def keepIndices (texts : List (List Nat)) (threshold : ℚ) : List Nat :=
  (List.range texts.length).filter (keepPred texts threshold)

/-- The removed indices, as computed for the dry-run report
(`set(range(len(texts))) - set(keep_indices)`, in ascending order). -/
def droppedIndices (texts : List (List Nat)) (threshold : ℚ) : List Nat :=
  (List.range texts.length).filter (fun i => ! keepPred texts threshold i)

/- ### Helper lemmas -/

/-- The overlap ratio is a plain division (in `ℚ`, `0 / 0 = 0`, which
agrees with the guarded `0.0` branch of the source). -/
theorem text_overlap_ratio_eq_div (a b : List Nat) :
    text_overlap_ratio a b =
      (((pySplit a).dedup.filter (fun w => w ∈ (pySplit b).dedup)).length : ℚ) /
        ((pySplit a).dedup.length : ℚ) := by
  unfold text_overlap_ratio
  by_cases h : (pySplit a).dedup = []
  · simp [h]
  · simp [h]

/-- The overlap ratio is never negative. -/
theorem text_overlap_ratio_nonneg (a b : List Nat) :
    0 ≤ text_overlap_ratio a b := by
  rw [text_overlap_ratio_eq_div]
  positivity

/- ### Theorems for the claims -/

/-- C1: Scenario A. With normalized page texts "a b c", "a b c d",
"x y z" and threshold 0.9, page 0 is redundant (overlap ratio 1.0,
successor strictly longer), page 1 is kept, page 2 is kept (last page),
and the sweep keeps exactly indices 1 and 2. -/
theorem scenarioA_keepset :
    text_overlap_ratio (cp "a b c") (cp "a b c d") = 1 ∧
    is_redundant (cp "a b c") (cp "a b c d") (9/10) = true ∧
    is_redundant (cp "a b c d") (cp "x y z") (9/10) = false ∧
    keepIndices [cp "a b c", cp "a b c d", cp "x y z"] (9/10) = [1, 2] := by
  have h1 : (pySplit (cp "a b c")).dedup = [[97], [98], [99]] := by decide
  have h2 : (pySplit (cp "a b c d")).dedup = [[97], [98], [99], [100]] := by decide
  have hr : text_overlap_ratio (cp "a b c") (cp "a b c d") = 1 := by
    rw [text_overlap_ratio_eq_div, h1, h2]
    norm_num
  have hred : is_redundant (cp "a b c") (cp "a b c d") (9/10) = true := by
    rw [is_redundant, if_neg (by decide)]
    rw [decide_eq_true_eq, hr]
    norm_num
  have hnred : is_redundant (cp "a b c d") (cp "x y z") (9/10) = false := by
    rw [is_redundant, if_pos (by decide)]
  refine ⟨hr, hred, hnred, ?_⟩
  have hk0 : keepPred [cp "a b c", cp "a b c d", cp "x y z"] (9/10) 0 = false := by
    rw [keepPred, if_neg (by decide)]
    have e0 : ([cp "a b c", cp "a b c d", cp "x y z"] : List (List Nat)).getD 0 [] =
        cp "a b c" := by decide
    have e1 : ([cp "a b c", cp "a b c d", cp "x y z"] : List (List Nat)).getD 1 [] =
        cp "a b c d" := by decide
    rw [e0, e1, hred]
    rfl
  have hk1 : keepPred [cp "a b c", cp "a b c d", cp "x y z"] (9/10) 1 = true := by
    rw [keepPred, if_neg (by decide)]
    have e1 : ([cp "a b c", cp "a b c d", cp "x y z"] : List (List Nat)).getD 1 [] =
        cp "a b c d" := by decide
    have e2 : ([cp "a b c", cp "a b c d", cp "x y z"] : List (List Nat)).getD 2 [] =
        cp "x y z" := by decide
    rw [e1, e2, hnred]
    rfl
  have hk2 : keepPred [cp "a b c", cp "a b c d", cp "x y z"] (9/10) 2 = true := by
    rw [keepPred, if_pos (by decide)]
  rw [keepIndices]
  have hrange : List.range ([cp "a b c", cp "a b c d", cp "x y z"] :
      List (List Nat)).length = [0, 1, 2] := by decide
  rw [hrange]
  simp [List.filter_cons, hk0, hk1, hk2]

/-- C2: length guard. Whenever the successor's normalized text is not
strictly longer in characters, the classifier never marks the page
redundant, whatever the threshold and whatever the word overlap. -/
theorem length_guard (prev curr : List Nat) (t : ℚ)
    (h : curr.length ≤ prev.length) :
    is_redundant prev curr t = false := by
  simp [is_redundant, h]

/-- Witness for C2 at a concrete input with 100% word overlap: identical
texts have equal length, so the page is not redundant. -/
theorem length_guard_witness :
    (cp "a b c").length ≤ (cp "a b c").length ∧
    is_redundant (cp "a b c") (cp "a b c") (9/10) = false :=
  ⟨by decide, length_guard (cp "a b c") (cp "a b c") (9/10) (by decide)⟩

/-- Membership of a non-last index in the keep list is exactly the
classifier's verdict on the page and its immediate successor. -/
theorem mem_keepIndices_iff (texts : List (List Nat)) (t : ℚ) (i : Nat)
    (h : i + 1 < texts.length) :
    i ∈ keepIndices texts t ↔
      is_redundant (texts.getD i []) (texts.getD (i + 1) []) t = false := by
  unfold keepIndices
  rw [List.mem_filter, List.mem_range]
  have hne : i ≠ texts.length - 1 := by omega
  rw [keepPred, if_neg hne]
  constructor
  · rintro ⟨-, hb⟩
    simpa using hb
  · intro hb
    exact ⟨by omega, by simpa using hb⟩

/-- C3: last-page invariant. For every non-empty page-text sequence and
every threshold, the last index is in the keep list. -/
theorem last_page_in_keepset (texts : List (List Nat)) (t : ℚ)
    (h : texts ≠ []) :
    texts.length - 1 ∈ keepIndices texts t := by
  unfold keepIndices
  rw [List.mem_filter, List.mem_range]
  have hpos : 0 < texts.length := List.length_pos.mpr h
  exact ⟨by omega, by simp [keepPred]⟩

/-- Witness for C3 on a concrete one-page input. -/
theorem last_page_in_keepset_witness :
    ([cp "x"] : List (List Nat)) ≠ [] ∧
    ([cp "x"] : List (List Nat)).length - 1 ∈ keepIndices [cp "x"] (9/10) :=
  ⟨by decide, last_page_in_keepset [cp "x"] (9/10) (by decide)⟩

/-- C7: the keep/drop decision at a non-last index is the classifier's
verdict on that page and its immediate successor alone; any other
sequence that agrees on those two texts yields the same decision for
the corresponding index, so the decision depends on no earlier decision
and not on whether the successor is itself kept. -/
theorem redundancy_decision_stateless (texts : List (List Nat)) (t : ℚ)
    (i : Nat) (h : i + 1 < texts.length) :
    ((i ∈ keepIndices texts t) ↔
      is_redundant (texts.getD i []) (texts.getD (i + 1) []) t = false) ∧
    (∀ texts2 : List (List Nat), ∀ i2 : Nat, i2 + 1 < texts2.length →
      texts.getD i [] = texts2.getD i2 [] →
      texts.getD (i + 1) [] = texts2.getD (i2 + 1) [] →
      ((i ∈ keepIndices texts t) ↔ (i2 ∈ keepIndices texts2 t))) := by
  refine ⟨mem_keepIndices_iff texts t i h, ?_⟩
  intro texts2 i2 h2 e1 e2
  rw [mem_keepIndices_iff texts t i h, mem_keepIndices_iff texts2 t i2 h2,
    e1, e2]

/-- Witness for C7 on a concrete two-page input. -/
theorem redundancy_decision_stateless_witness :
    0 + 1 < ([cp "a", cp "bb"] : List (List Nat)).length ∧
    ((0 ∈ keepIndices [cp "a", cp "bb"] (9/10)) ↔
      is_redundant (([cp "a", cp "bb"] : List (List Nat)).getD 0 [])
        (([cp "a", cp "bb"] : List (List Nat)).getD 1 []) (9/10) = false) :=
  ⟨by decide,
    (redundancy_decision_stateless [cp "a", cp "bb"] (9/10) 0 (by decide)).1⟩

/-- C5 counterexample: at threshold 0, the page "a" shares no word with
its successor "bc", yet the classifier marks it redundant (the
successor is strictly longer and the ratio 0.0 still reaches the
threshold), so "redundant exactly when at least one word is shared and
the successor is longer" is false as stated. -/
theorem zero_threshold_counterexample :
    (pySplit (cp "a")).filter (fun w => w ∈ pySplit (cp "bc")) = [] ∧
    is_redundant (cp "a") (cp "bc") 0 = true := by
  constructor
  · decide
  · rw [is_redundant, if_neg (by decide), decide_eq_true_eq]
    exact text_overlap_ratio_nonneg _ _

/-- C5 amended: with threshold 0, the classifier marks a page redundant
exactly when its successor's normalized text is strictly longer in
characters — any overlap ratio, including 0, passes the bar. -/
theorem zero_threshold_iff (prev curr : List Nat) :
    is_redundant prev curr 0 = true ↔ prev.length < curr.length := by
  rw [is_redundant]
  by_cases h : curr.length ≤ prev.length
  · rw [if_pos h]
    simp only [Bool.false_eq_true, false_iff]
    omega
  · rw [if_neg h, decide_eq_true_eq]
    constructor
    · intro _
      omega
    · intro _
      exact text_overlap_ratio_nonneg _ _

/-- C4 counterexample: a page with zero normalized words IS classified
redundant at threshold 0 against any strictly longer successor: the
ratio is 0.0 and 0.0 ≥ 0 holds, so "never classified as redundant, for
every threshold" is false as stated. -/
theorem empty_page_counterexample :
    pySplit (cp "") = [] ∧ is_redundant (cp "") (cp "a") 0 = true := by
  constructor
  · decide
  · rw [is_redundant, if_neg (by decide), decide_eq_true_eq]
    exact text_overlap_ratio_nonneg _ _

/-- C4 amended: a page with zero distinct words has overlap ratio 0.0
(defined, not an error) against every successor, and for every strictly
positive threshold it is never classified redundant. -/
theorem empty_page_not_redundant (prev curr : List Nat) (t : ℚ)
    (hw : pySplit prev = []) (ht : 0 < t) :
    text_overlap_ratio prev curr = 0 ∧
    is_redundant prev curr t = false := by
  have hr : text_overlap_ratio prev curr = 0 := by
    rw [text_overlap_ratio]
    simp [hw]
  refine ⟨hr, ?_⟩
  rw [is_redundant]
  by_cases h : curr.length ≤ prev.length
  · rw [if_pos h]
  · rw [if_neg h]
    rw [decide_eq_false_iff_not, hr]
    exact not_le.mpr ht

/-- Witness for the amended C4 at a concrete input. -/
theorem empty_page_not_redundant_witness :
    pySplit (cp "") = [] ∧ (0 : ℚ) < 9/10 ∧
    (text_overlap_ratio (cp "") (cp "a") = 0 ∧
      is_redundant (cp "") (cp "a") (9/10) = false) :=
  ⟨by decide, by norm_num,
    empty_page_not_redundant (cp "") (cp "a") (9/10) (by decide) (by norm_num)⟩

/-- Raising the threshold can only turn a redundant verdict into a kept
one, never the reverse. -/
theorem is_redundant_mono (prev curr : List Nat) (t1 t2 : ℚ) (h : t1 ≤ t2)
    (hr : is_redundant prev curr t2 = true) :
    is_redundant prev curr t1 = true := by
  rw [is_redundant] at hr ⊢
  by_cases hg : curr.length ≤ prev.length
  · rw [if_pos hg] at hr
    cases hr
  · rw [if_neg hg] at hr ⊢
    rw [decide_eq_true_eq] at hr ⊢
    exact le_trans h hr

/-- A page kept at a lower threshold is kept at any higher threshold. -/
theorem keepPred_mono (texts : List (List Nat)) (t1 t2 : ℚ) (h : t1 ≤ t2)
    (i : Nat) (hk : keepPred texts t1 i = true) :
    keepPred texts t2 i = true := by
  rw [keepPred] at hk ⊢
  by_cases hl : i = texts.length - 1
  · rw [if_pos hl]
  · rw [if_neg hl] at hk ⊢
    simp only [Bool.not_eq_true'] at hk ⊢
    cases hred : is_redundant (texts.getD i []) (texts.getD (i + 1) []) t2 with
    | false => rfl
    | true =>
      have := is_redundant_mono _ _ t1 t2 h hred
      rw [this] at hk
      cases hk

/-- C6: monotonicity in the threshold. For a fixed page-text sequence,
raising the threshold never increases the number of dropped pages. -/
theorem dropped_monotone (texts : List (List Nat)) (t1 t2 : ℚ)
    (h : t1 ≤ t2) :
    (droppedIndices texts t2).length ≤ (droppedIndices texts t1).length := by
  unfold droppedIndices
  apply List.Sublist.length_le
  apply List.monotone_filter_right
  intro i hi
  simp only [Bool.not_eq_true'] at hi ⊢
  cases hk : keepPred texts t1 i with
  | false => rfl
  | true =>
    have := keepPred_mono texts t1 t2 h i hk
    rw [this] at hi
    cases hi

/-- Witness for C6 on the Scenario A deck with thresholds 0 ≤ 0.9. -/
theorem dropped_monotone_witness :
    ((0 : ℚ) ≤ 9/10) ∧
    (droppedIndices [cp "a b c", cp "a b c d", cp "x y z"] (9/10)).length ≤
      (droppedIndices [cp "a b c", cp "a b c d", cp "x y z"] 0).length :=
  ⟨by norm_num, dropped_monotone _ 0 (9/10) (by norm_num)⟩

/-- The user-visible messages `clean_pdf` prints, as abstract events:
the per-page verbose notice, the dry-run summary, and the two lines
printed after a successful save. -/
inductive LogEvent where
  | removing (slide mergedInto : Nat)
  | slidesToRemove (oneBased : List Nat)
  | savedCleanPdf
  | slidesKept (kept total : Nat)
deriving DecidableEq

/-- The observable outcome of one `clean_pdf` run on an extracted
page-text sequence: the computed keep list, the printed messages in
order, and whether an output file was written. -/
structure CleanResult where
  keep : List Nat
  log : List LogEvent
  wrote : Bool
deriving DecidableEq

/-- `clean_pdf` from cleanpdf.py, after text extraction: the sweep
builds `keep_indices`; verbose mode prints one notice per dropped page
(1-based, naming the absorbing page); dry-run prints the dropped list
(1-based) and writes nothing; otherwise the kept pages are written out
and the save messages printed. -/
def cleanPdfModel (texts : List (List Nat)) (threshold : ℚ)
    (dry_run verbose : Bool) : CleanResult :=
  let keep := keepIndices texts threshold
  let vlog :=
    if verbose then
      (droppedIndices texts threshold).map
        (fun i => LogEvent.removing (i + 1) (i + 2))
    else []
  if dry_run then
    { keep := keep
      log := vlog ++
        [LogEvent.slidesToRemove ((droppedIndices texts threshold).map (· + 1))]
      wrote := false }
  else
    { keep := keep
      log := vlog ++ [LogEvent.savedCleanPdf,
        LogEvent.slidesKept keep.length texts.length]
      wrote := true }

/-- C10: the keep/drop classification is determined by the page-text
sequence and the threshold alone; every combination of the dry_run and
verbose flags produces exactly the same keep list. -/
theorem flags_only_affect_output (texts : List (List Nat)) (t : ℚ)
    (d1 v1 d2 v2 : Bool) :
    (cleanPdfModel texts t d1 v1).keep = keepIndices texts t ∧
    (cleanPdfModel texts t d1 v1).keep = (cleanPdfModel texts t d2 v2).keep := by
  have hk : ∀ d v : Bool, (cleanPdfModel texts t d v).keep = keepIndices texts t := by
    intro d v
    cases d <;> simp [cleanPdfModel]
  exact ⟨hk d1 v1, by rw [hk d1 v1, hk d2 v2]⟩

/-- Python `str.rfind` for a single character: the greatest index at
which it occurs, or -1 when it is absent. -/
def rfind : List Nat → Nat → Int
  | [], _ => -1
  | c :: cs, x =>
    let r := rfind cs x
    if r ≥ 0 then r + 1 else if c = x then 0 else -1

/-- `os.path.splitext` for POSIX paths (sep `/`, extension sep `.`):
the extension starts at the last dot after the last slash, unless every
character between that slash and that dot is itself a dot (names like
".bashrc" have no extension). -/
def splitext (p : List Nat) : List Nat × List Nat :=
  let sepIndex := rfind p 47
  let dotIndex := rfind p 46
  if sepIndex < dotIndex then
    let fi := (sepIndex + 1).toNat
    let di := dotIndex.toNat
    if (List.range di).any (fun j => decide (fi ≤ j) && (p.getD j 0 != 46)) then
      (p.take di, p.drop di)
    else
      (p, [])
  else
    (p, [])

/-- The output-path choice in `main`: `args.out` when given and
non-empty (Python truthiness of a string), otherwise the input path's
stem with `"_cleaned.pdf"` appended. -/
def outputPath (argOut : Option (List Nat)) (input : List Nat) : List Nat :=
  match argOut with
  | some o => if o = [] then (splitext input).1 ++ cp "_cleaned.pdf" else o
  | none => (splitext input).1 ++ cp "_cleaned.pdf"

/-- The default output path as the spec words it:
`<input-stem>_cleaned<input-ext>` (stated for comparison with the
code's actual default). -/
def specDefaultOutput (input : List Nat) : List Nat :=
  (splitext input).1 ++ cp "_cleaned" ++ (splitext input).2

/-- C8 counterexample: for the input "deck.txt" the code's default
output is "deck_cleaned.pdf", not the spec's
`<input-stem>_cleaned<input-ext>` = "deck_cleaned.txt". -/
theorem default_output_counterexample :
    outputPath none (cp "deck.txt") = cp "deck_cleaned.pdf" ∧
    specDefaultOutput (cp "deck.txt") = cp "deck_cleaned.txt" ∧
    outputPath none (cp "deck.txt") ≠ specDefaultOutput (cp "deck.txt") := by
  decide

/-- C8 amended: when no output path is given, the default output is the
input path's stem followed by `"_cleaned.pdf"`, whatever the input's
extension; it coincides with `<input-stem>_cleaned<input-ext>` exactly
for inputs whose extension is `".pdf"`. -/
theorem default_output_amended (input : List Nat) :
    outputPath none input = (splitext input).1 ++ cp "_cleaned.pdf" ∧
    ((splitext input).2 = cp ".pdf" →
      outputPath none input = specDefaultOutput input) := by
  refine ⟨rfl, fun h => ?_⟩
  show (splitext input).1 ++ cp "_cleaned.pdf" = _
  rw [specDefaultOutput, h, List.append_assoc]
  congr 1

/-- Witness for the amended C8 at the concrete input "deck.pdf". -/
theorem default_output_amended_witness :
    (splitext (cp "deck.pdf")).2 = cp ".pdf" ∧
    outputPath none (cp "deck.pdf") = specDefaultOutput (cp "deck.pdf") :=
  ⟨by decide, (default_output_amended (cp "deck.pdf")).2 (by decide)⟩

/-- ASCII lowering is idempotent: a lowered codepoint is outside the
uppercase range, so lowering it again changes nothing. -/
theorem lowerChar_lowerChar (c : Nat) : lowerChar (lowerChar c) = lowerChar c := by
  unfold lowerChar
  split_ifs <;> omega

/-- Whitespace codepoints are outside the uppercase range, so lowering
fixes them. -/
theorem lowerChar_of_isSpace (c : Nat) (h : isSpace c = true) :
    lowerChar c = c := by
  simp only [isSpace, Bool.or_eq_true, beq_iff_eq] at h
  rw [lowerChar, if_neg (by omega)]

/-- Every character of every word produced by `splitAux` comes from the
input or from the accumulator. -/
theorem splitAux_chars : ∀ (l acc w : List Nat), w ∈ splitAux l acc →
    ∀ c ∈ w, c ∈ l ∨ c ∈ acc := by
  intro l
  induction l with
  | nil =>
    intro acc w hw c hc
    simp only [splitAux] at hw
    by_cases h : acc = []
    · rw [if_pos h] at hw
      cases hw
    · rw [if_neg h] at hw
      rw [List.mem_singleton] at hw
      subst hw
      exact Or.inr (List.mem_reverse.mp hc)
  | cons a l ih =>
    intro acc w hw c hc
    simp only [splitAux] at hw
    by_cases hs : isSpace a = true
    · rw [if_pos hs] at hw
      by_cases h : acc = []
      · rw [if_pos h] at hw
        rcases ih [] w hw c hc with h1 | h1
        · exact Or.inl (List.mem_cons_of_mem _ h1)
        · cases h1
      · rw [if_neg h] at hw
        rcases List.mem_cons.mp hw with h1 | h1
        · subst h1
          exact Or.inr (List.mem_reverse.mp hc)
        · rcases ih [] w h1 c hc with h2 | h2
          · exact Or.inl (List.mem_cons_of_mem _ h2)
          · cases h2
    · rw [if_neg hs] at hw
      rcases ih (a :: acc) w hw c hc with h1 | h1
      · exact Or.inl (List.mem_cons_of_mem _ h1)
      · rcases List.mem_cons.mp h1 with h2 | h2
        · subst h2
          exact Or.inl (List.mem_cons_self _ _)
        · exact Or.inr h2

/-- Every word produced by `splitAux` from a whitespace-free
accumulator is nonempty and whitespace-free. -/
theorem splitAux_words (l : List Nat) : ∀ acc : List Nat,
    (∀ c ∈ acc, isSpace c = false) →
    ∀ w ∈ splitAux l acc, w ≠ [] ∧ ∀ c ∈ w, isSpace c = false := by
  induction l with
  | nil =>
    intro acc hacc w hw
    simp only [splitAux] at hw
    by_cases h : acc = []
    · rw [if_pos h] at hw
      cases hw
    · rw [if_neg h] at hw
      rw [List.mem_singleton] at hw
      subst hw
      refine ⟨by simpa using h, ?_⟩
      intro c hc
      exact hacc c (List.mem_reverse.mp hc)
  | cons a l ih =>
    intro acc hacc w hw
    simp only [splitAux] at hw
    by_cases hs : isSpace a = true
    · rw [if_pos hs] at hw
      by_cases h : acc = []
      · rw [if_pos h] at hw
        exact ih [] (by intro c hc; cases hc) w hw
      · rw [if_neg h] at hw
        rcases List.mem_cons.mp hw with h1 | h1
        · subst h1
          exact ⟨by simpa using h, fun c hc => hacc c (List.mem_reverse.mp hc)⟩
        · exact ih [] (by intro c hc; cases hc) w h1
    · rw [if_neg hs] at hw
      refine ih (a :: acc) ?_ w hw
      intro c hc
      rcases List.mem_cons.mp hc with h2 | h2
      · subst h2
        exact Bool.eq_false_iff.mpr hs
      · exact hacc c h2

/-- Feeding a whitespace-free word into `splitAux` just accumulates it. -/
theorem splitAux_append (w : List Nat) : ∀ l acc : List Nat,
    (∀ c ∈ w, isSpace c = false) →
    splitAux (w ++ l) acc = splitAux l (w.reverse ++ acc) := by
  induction w with
  | nil =>
    intro l acc _
    simp
  | cons a w ih =>
    intro l acc hw
    have ha : isSpace a = false := hw a (List.mem_cons_self _ _)
    simp only [List.cons_append, splitAux]
    rw [if_neg (by simp [ha])]
    simp only [List.append_eq]
    rw [ih l (a :: acc) (fun c hc => hw c (List.mem_cons_of_mem _ hc))]
    congr 1
    simp

/-- Every character of the joined word list is a space or a character
of one of the words. -/
theorem mem_joinWords : ∀ (ws : List (List Nat)) (c : Nat),
    c ∈ joinWords ws → c = 32 ∨ ∃ w ∈ ws, c ∈ w := by
  intro ws
  induction ws with
  | nil =>
    intro c hc
    cases hc
  | cons w vs ih =>
    intro c hc
    cases vs with
    | nil =>
      simp only [joinWords] at hc
      exact Or.inr ⟨w, List.mem_cons_self _ _, hc⟩
    | cons v vs2 =>
      simp only [joinWords] at hc
      rcases List.mem_append.mp hc with h1 | h1
      · exact Or.inr ⟨w, List.mem_cons_self _ _, h1⟩
      · rcases List.mem_cons.mp h1 with h2 | h2
        · exact Or.inl h2
        · rcases ih c h2 with h3 | ⟨u, hu, hcu⟩
          · exact Or.inl h3
          · exact Or.inr ⟨u, List.mem_cons_of_mem _ hu, hcu⟩

/-- Splitting the space-joined word list recovers the words, provided
each word is nonempty and whitespace-free. -/
theorem pySplit_joinWords : ∀ ws : List (List Nat),
    (∀ w ∈ ws, w ≠ [] ∧ ∀ c ∈ w, isSpace c = false) →
    pySplit (joinWords ws) = ws := by
  intro ws
  induction ws with
  | nil =>
    intro _
    rfl
  | cons w vs ih =>
    intro h
    have hwp := h w (List.mem_cons_self _ _)
    cases vs with
    | nil =>
      show splitAux (joinWords [w]) [] = [w]
      simp only [joinWords]
      rw [← List.append_nil w, splitAux_append w [] [] hwp.2]
      simp only [splitAux]
      rw [if_neg (by simp [hwp.1])]
      simp
    | cons v vs2 =>
      show splitAux (joinWords (w :: v :: vs2)) [] = w :: v :: vs2
      simp only [joinWords]
      rw [splitAux_append w _ [] hwp.2]
      simp only [splitAux]
      rw [if_pos (by decide), if_neg (by simp [hwp.1])]
      have ihh := ih (fun u hu => h u (List.mem_cons_of_mem _ hu))
      rw [pySplit] at ihh
      rw [ihh]
      simp

/-- Mapping a function that fixes every element of a list is the
identity on that list. -/
theorem map_id_of_mem {f : Nat → Nat} : ∀ {l : List Nat},
    (∀ c ∈ l, f c = c) → l.map f = l := by
  intro l
  induction l with
  | nil =>
    intro _
    rfl
  | cons a l ih =>
    intro h
    rw [List.map_cons, h a (List.mem_cons_self _ _),
      ih (fun c hc => h c (List.mem_cons_of_mem _ hc))]

/-- Every character of a normalized text is already lowercase, so the
lowering pass of a second normalization is the identity. -/
theorem map_lowerChar_normalize (t : List Nat) :
    (normalize t).map lowerChar = normalize t := by
  apply map_id_of_mem
  intro c hc
  rw [normalize] at hc
  rcases mem_joinWords _ c hc with h | ⟨w, hw, hcw⟩
  · subst h
    decide
  · rcases splitAux_chars (t.map lowerChar) [] w hw c hcw with h1 | h1
    · obtain ⟨d, _, rfl⟩ := List.mem_map.mp h1
      exact lowerChar_lowerChar d
    · cases h1

/-- C9: normalization is idempotent — normalizing an already-normalized
string returns it unchanged. -/
theorem normalize_idempotent (t : List Nat) :
    normalize (normalize t) = normalize t := by
  conv_lhs => rw [normalize]
  rw [map_lowerChar_normalize]
  conv_lhs => rw [normalize]
  have hws : ∀ w ∈ pySplit (List.map lowerChar t),
      w ≠ [] ∧ ∀ c ∈ w, isSpace c = false := by
    intro w hw
    exact splitAux_words (List.map lowerChar t) [] (by intro c hc; cases hc) w hw
  rw [pySplit_joinWords _ hws, normalize]

end CleanPdf
